import Mathlib

/-!
Shallow embedding of the pnpm lockfile read/merge subsystem
(src/packages/lockfile-file/src/read.ts) and of the foreign-lockfile
version extraction logic of the pnpm import command.

JavaScript objects are modelled as association lists (`AList`), which
keep both the key-value mapping and the key insertion order that
JavaScript objects preserve.  External collaborators (the YAML parser,
the conflict resolver, the file system, the git-branch lockfile name
enumeration) are modelled as explicit inputs.
-/

deriving instance DecidableEq for Except

namespace PnpmLock

/-- Association list keyed by strings, modelling a JavaScript object. -/
abbrev AList (V : Type) := List (String × V)

/-- Lookup of a key in an association list: first matching entry wins,
exactly like property lookup on a JavaScript object whose later
duplicate writes are modelled by functional update. -/
def alookup {V : Type} : AList V → String → Option V
  | [], _ => none
  | (k, v) :: rest, key => if k = key then some v else alookup rest key

/-- JavaScript object spread `\x7b ...a, ...b \x7d`: the keys of `a` in their
original order carry the value from `b` when `b` also has the key, then the
keys of `b` that are not in `a` follow, in their order in `b`. -/
def spreadMerge {V : Type} (a b : AList V) : AList V :=
  a.map (fun p => (p.1, (alookup b p.1).getD p.2)) ++
    b.filter (fun p => (alookup a p.1).isNone)

/-- Compact version encoding: a comver value `M.m` (an integer comver `M`
has minor component 0, matching `comverToSemver` on a dotless string). -/
structure Comver where
  major : Nat
  minor : Nat
deriving DecidableEq, Repr

/-- Full semantic version triple. -/
structure Semver where
  major : Nat
  minor : Nat
  patch : Nat
deriving DecidableEq, Repr

/-- The comver-to-semver package: appends the missing components, so
`M.m` becomes `M.m.0` (and plain `M` becomes `M.0.0`). -/
def comverToSemver (c : Comver) : Semver :=
  { major := c.major, minor := c.minor, patch := 0 }

/-- Strict semver comparison `semver.gt` on versions without prerelease
tags: lexicographic on (major, minor, patch). -/
def semverGtB (a b : Semver) : Bool :=
  if a.major ≠ b.major then decide (a.major > b.major)
  else if a.minor ≠ b.minor then decide (a.minor > b.minor)
  else decide (a.patch > b.patch)

/-- Payload of a package snapshot in the `packages` map of a lockfile.
Its contents are defined in @pnpm/lockfile-types and never inspected by
the code under verification, so it is kept opaque as a string token. -/
abbrev PackageInfo := String

/-- Payload of a dependenciesMeta entry; opaque to the code under
verification. -/
abbrev DepMeta := String

/-- Per-importer record (ProjectSnapshot in @pnpm/lockfile-types):
`specifiers` plus one optional map per dependency field kind and
`dependenciesMeta`. -/
structure ProjectSnapshot where
  specifiers : AList String
  dependenciesMeta : Option (AList DepMeta) := none
  optionalDependencies : Option (AList String) := none
  dependencies : Option (AList String) := none
  devDependencies : Option (AList String) := none
deriving DecidableEq, Repr

/-- The parsed lockfile document (`LockfileFile`): the current nested
shape (importers) together with the legacy flat-root fields that the
schema migration moves into `importers["."]`. -/
structure LockfileFile where
  lockfileVersion : Option Comver := none
  importers : Option (AList ProjectSnapshot) := none
  packages : Option (AList PackageInfo) := none
  specifiers : Option (AList String) := none
  dependenciesMeta : Option (AList DepMeta) := none
  optionalDependencies : Option (AList String) := none
  dependencies : Option (AList String) := none
  devDependencies : Option (AList String) := none
deriving DecidableEq, Repr

/-- Schema migration (read.ts lines 134-148): when a `specifiers` key is
present at the document root, build `importers["."]` from the root
`specifiers` and `dependenciesMeta`, move each field of
DEPENDENCIES_FIELDS (optionalDependencies, dependencies,
devDependencies) present at the root into that record, and delete the
moved root fields.  The root `dependenciesMeta` is read but not deleted,
exactly as in the source. -/
def migrateLockfile (lf : LockfileFile) : LockfileFile :=
  match lf.specifiers with
  | none => lf
  | some specs =>
    { lf with
      importers := some [(".",
        { specifiers := specs
          dependenciesMeta := lf.dependenciesMeta
          optionalDependencies := lf.optionalDependencies
          dependencies := lf.dependencies
          devDependencies := lf.devDependencies })]
      specifiers := none
      optionalDependencies := none
      dependencies := none
      devDependencies := none }

/-- Outcome of `yaml.load` on the raw text together with the two other
facts about the raw text that `_read` consults: whether it matches the
merge-conflict marker pattern (`isDiff`), and what document the conflict
resolver (`autofixMergeConflicts`) produces from it.  The YAML parser
and the conflict resolver are external collaborators, so their outcomes
are inputs of the model. -/
structure RawLockfileContent where
  parseResult : Except String (Option LockfileFile)
  isDiff : Bool
  autofixResult : LockfileFile
deriving DecidableEq, Repr

/-- Result of reading the lockfile file from disk. -/
inductive ReadFileResult where
  | content (raw : RawLockfileContent)
  | enoent
  | ioFailure (code : String)
deriving DecidableEq, Repr

/-- Error kinds raised by the code under verification. -/
inductive PnpmErr where
  | brokenLockfile (lockfilePath : String) (message : String)
  | lockfileBreakingChange (lockfilePath : String)
  | ioError (code : String)
  | lockfileNotFound
deriving DecidableEq, Repr

/-- Log events emitted by `_read` (side effects in the source, made part
of the result in the model). -/
inductive LogEvent where
  | infoMergeConflictsFixed
  | warnDowngrade
  | warnIgnoringIncompatible
deriving DecidableEq, Repr

/-- Successful result of `_read`: the (possibly absent) lockfile, the
hadConflicts flag, and the log events emitted along the way. -/
structure ReadSuccess where
  lockfile : Option LockfileFile
  hadConflicts : Bool
  logs : List LogEvent
deriving DecidableEq, Repr

/-- Options record of `_read`. -/
structure ReadOpts where
  autofixMergeConflicts : Bool := false
  wantedVersion : Option Comver := none
  ignoreIncompatible : Bool
deriving DecidableEq, Repr

/-- The shared read routine `_read` (read.ts lines 93-171).  The file
system is an input (`file`); the logging prefix parameter is omitted
because log events are recorded without it. -/
def readShared (lockfilePath : String) (file : ReadFileResult) (opts : ReadOpts) :
    Except PnpmErr ReadSuccess :=
  match file with
  | .ioFailure code => .error (.ioError code)
  | .enoent => .ok { lockfile := none, hadConflicts := false, logs := [] }
  | .content raw =>
    match
      (match raw.parseResult with
       | .ok doc => Except.ok (doc, false, ([] : List LogEvent))
       | .error msg =>
         if !opts.autofixMergeConflicts || !raw.isDiff then
           Except.error (PnpmErr.brokenLockfile lockfilePath msg)
         else
           Except.ok (some raw.autofixResult, true, [LogEvent.infoMergeConflictsFixed])) with
    | .error e => .error e
    | .ok (doc0, hadConflicts, logs0) =>
      match doc0.map migrateLockfile with
      | some lf =>
        let lockfileSemver := comverToSemver (lf.lockfileVersion.getD { major := 0, minor := 0 })
        match opts.wantedVersion with
        | none => .ok { lockfile := some lf, hadConflicts := hadConflicts, logs := logs0 }
        | some w =>
          if lockfileSemver.major = (comverToSemver w).major then
            if semverGtB lockfileSemver (comverToSemver w) then
              .ok { lockfile := some lf, hadConflicts := hadConflicts,
                    logs := logs0 ++ [LogEvent.warnDowngrade] }
            else
              .ok { lockfile := some lf, hadConflicts := hadConflicts, logs := logs0 }
          else if opts.ignoreIncompatible then
            .ok { lockfile := none, hadConflicts := false,
                  logs := logs0 ++ [LogEvent.warnIgnoringIncompatible] }
          else
            .error (.lockfileBreakingChange lockfilePath)
      | none =>
        if opts.ignoreIncompatible then
          .ok { lockfile := none, hadConflicts := false,
                logs := logs0 ++ [LogEvent.warnIgnoringIncompatible] }
        else
          .error (.lockfileBreakingChange lockfilePath)

end PnpmLock

namespace PnpmLock

/-- C6: the legacy-shape schema migration is idempotent, and it is a
no-op on a document without a root specifiers key. -/
theorem claim_C6_migration_idempotent :
    (∀ lf : LockfileFile, migrateLockfile (migrateLockfile lf) = migrateLockfile lf) ∧
    (∀ lf : LockfileFile, lf.specifiers = none → migrateLockfile lf = lf) := by
  have hnone : ∀ lf : LockfileFile, lf.specifiers = none → migrateLockfile lf = lf := by
    intro lf h
    unfold migrateLockfile
    rw [h]
  refine ⟨?_, hnone⟩
  intro lf
  apply hnone
  unfold migrateLockfile
  cases h : lf.specifiers with
  | none => exact h
  | some specs => rfl

/-- Witness for C6 at the empty document. -/
theorem claim_C6_witness :
    ({} : LockfileFile).specifiers = none ∧ migrateLockfile {} = ({} : LockfileFile) :=
  ⟨rfl, claim_C6_migration_idempotent.2 {} rfl⟩

/-- C7: a file-not-found condition makes the shared read routine return
an absent lockfile with hadConflicts = false and no error, while any
other read failure code propagates unchanged. -/
theorem claim_C7_enoent_absent_other_io_propagates :
    ∀ (lockfilePath : String) (opts : ReadOpts),
      (readShared lockfilePath ReadFileResult.enoent opts =
        Except.ok { lockfile := none, hadConflicts := false, logs := [] }) ∧
      (∀ code : String,
        readShared lockfilePath (ReadFileResult.ioFailure code) opts =
          Except.error (PnpmErr.ioError code)) := by
  intro lockfilePath opts
  exact ⟨rfl, fun _ => rfl⟩

/-- C9: an existing file whose text parses to a null document is not the
normal no-lockfile case: without ignoreIncompatible the routine fails
with LockfileBreakingChange even when no wantedVersion was requested;
with ignoreIncompatible it logs a warning and returns absent. -/
theorem claim_C9_null_document (lockfilePath : String) (raw : RawLockfileContent)
    (opts : ReadOpts) (h : raw.parseResult = Except.ok none) :
    (opts.ignoreIncompatible = false →
      readShared lockfilePath (ReadFileResult.content raw) opts =
        Except.error (PnpmErr.lockfileBreakingChange lockfilePath)) ∧
    (opts.ignoreIncompatible = true →
      readShared lockfilePath (ReadFileResult.content raw) opts =
        Except.ok { lockfile := none, hadConflicts := false,
                    logs := [LogEvent.warnIgnoringIncompatible] }) := by
  constructor <;> intro hi <;> simp [readShared, h, hi]

/-- Witness for C9 on an empty-file parse result. -/
theorem claim_C9_witness :
    ({ parseResult := Except.ok none, isDiff := false,
       autofixResult := {} } : RawLockfileContent).parseResult = Except.ok none ∧
    readShared "pnpm-lock.yaml"
      (ReadFileResult.content
        { parseResult := Except.ok none, isDiff := false, autofixResult := {} })
      { ignoreIncompatible := false } =
      Except.error (PnpmErr.lockfileBreakingChange "pnpm-lock.yaml") :=
  ⟨rfl,
    (claim_C9_null_document "pnpm-lock.yaml"
      { parseResult := Except.ok none, isDiff := false, autofixResult := {} }
      { ignoreIncompatible := false } rfl).1 rfl⟩

end PnpmLock

namespace PnpmLock

/-- C1: version-compatibility policy of the shared read routine on a
successfully parsed (non-null) document: no wantedVersion accepts; equal
majors accept, with a downgrade warning exactly when the document
version is strictly greater; unequal majors return absent when
ignoreIncompatible is set and fail with LockfileBreakingChange
otherwise. -/
theorem claim_C1_version_compatibility (lockfilePath : String) (raw : RawLockfileContent)
    (doc : LockfileFile) (opts : ReadOpts)
    (h : raw.parseResult = Except.ok (some doc)) :
    (opts.wantedVersion = none →
      readShared lockfilePath (ReadFileResult.content raw) opts =
        Except.ok { lockfile := some (migrateLockfile doc), hadConflicts := false, logs := [] }) ∧
    (∀ w : Comver, opts.wantedVersion = some w →
      (comverToSemver (((migrateLockfile doc).lockfileVersion).getD ⟨0, 0⟩)).major =
        (comverToSemver w).major →
      readShared lockfilePath (ReadFileResult.content raw) opts =
        Except.ok { lockfile := some (migrateLockfile doc), hadConflicts := false,
                    logs := (if semverGtB
                      (comverToSemver (((migrateLockfile doc).lockfileVersion).getD ⟨0, 0⟩))
                      (comverToSemver w) then [LogEvent.warnDowngrade] else []) }) ∧
    (∀ w : Comver, opts.wantedVersion = some w →
      (comverToSemver (((migrateLockfile doc).lockfileVersion).getD ⟨0, 0⟩)).major ≠
        (comverToSemver w).major →
      opts.ignoreIncompatible = true →
      readShared lockfilePath (ReadFileResult.content raw) opts =
        Except.ok { lockfile := none, hadConflicts := false,
                    logs := [LogEvent.warnIgnoringIncompatible] }) ∧
    (∀ w : Comver, opts.wantedVersion = some w →
      (comverToSemver (((migrateLockfile doc).lockfileVersion).getD ⟨0, 0⟩)).major ≠
        (comverToSemver w).major →
      opts.ignoreIncompatible = false →
      readShared lockfilePath (ReadFileResult.content raw) opts =
        Except.error (PnpmErr.lockfileBreakingChange lockfilePath)) := by
  refine ⟨?_, ?_, ?_, ?_⟩
  · intro hw
    simp [readShared, h, hw]
  · intro w hw hmaj
    simp only [readShared, h, hw]
    simp [hmaj]
    split <;> rfl
  · intro w hw hmaj hi
    simp [readShared, h, hw, hmaj, hi]
  · intro w hw hmaj hi
    simp [readShared, h, hw, hmaj, hi]

/-- Witness document for C1: lockfileVersion 5.10 against wanted 5.4,
accepted with a downgrade warning. -/
def c1Doc : LockfileFile := { lockfileVersion := some ⟨5, 10⟩ }

/-- Witness raw content for C1. -/
def c1Raw : RawLockfileContent :=
  { parseResult := Except.ok (some c1Doc), isDiff := false, autofixResult := {} }

/-- Witness for C1: document version 5.10, wanted version 5.4, equal
majors, strictly newer minor, hence accepted with a downgrade
warning. -/
theorem claim_C1_witness :
    c1Raw.parseResult = Except.ok (some c1Doc) ∧
    readShared "pnpm-lock.yaml" (ReadFileResult.content c1Raw)
      { wantedVersion := some ⟨5, 4⟩, ignoreIncompatible := false } =
      Except.ok { lockfile := some (migrateLockfile c1Doc), hadConflicts := false,
                  logs := [LogEvent.warnDowngrade] } := by
  refine ⟨rfl, ?_⟩
  have h2 := (claim_C1_version_compatibility "pnpm-lock.yaml" c1Raw c1Doc
    { wantedVersion := some ⟨5, 4⟩, ignoreIncompatible := false } rfl).2.1 ⟨5, 4⟩ rfl (by decide)
  simpa [c1Doc, migrateLockfile, semverGtB, comverToSemver] using h2

end PnpmLock

namespace PnpmLock

/-- Raw content for the C2 counterexample: a parse failure over
conflict-marker text whose conflict-resolved document has major version
6. -/
def c2Raw : RawLockfileContent :=
  { parseResult := Except.error "unexpected token",
    isDiff := true,
    autofixResult := { lockfileVersion := some ⟨6, 0⟩ } }

/-- Counterexample to C2 as stated: the text fails to parse, auto-fix is
enabled and the text matches the conflict-marker pattern, yet the
routine does not return the conflict-resolved document with
hadConflicts = true — the version-compatibility check rejects the
resolved document (major 6 against wanted major 5) and the routine fails
with LockfileBreakingChange. -/
theorem claim_C2_counterexample :
    readShared "pnpm-lock.yaml" (ReadFileResult.content c2Raw)
      { autofixMergeConflicts := true, wantedVersion := some ⟨5, 0⟩,
        ignoreIncompatible := false } =
      Except.error (PnpmErr.lockfileBreakingChange "pnpm-lock.yaml") := by
  rfl

/-- C2 amended: on a parse failure, if auto-fix is disabled or the text
does not match the conflict-marker pattern the routine fails with
BrokenLockfile carrying the path and the parser message; otherwise it
proceeds with the conflict-resolved document and hadConflicts = true,
returning it (schema-migrated) whenever the version-compatibility check
accepts it — in particular always when no wantedVersion is requested —
and otherwise following the version-compatibility path (absent with
hadConflicts = false when ignoreIncompatible, else a
LockfileBreakingChange failure). -/
theorem claim_C2_parse_failure (lockfilePath : String) (raw : RawLockfileContent)
    (msg : String) (opts : ReadOpts) (h : raw.parseResult = Except.error msg) :
    (opts.autofixMergeConflicts = false ∨ raw.isDiff = false →
      readShared lockfilePath (ReadFileResult.content raw) opts =
        Except.error (PnpmErr.brokenLockfile lockfilePath msg)) ∧
    (opts.autofixMergeConflicts = true → raw.isDiff = true →
      (opts.wantedVersion = none →
        readShared lockfilePath (ReadFileResult.content raw) opts =
          Except.ok { lockfile := some (migrateLockfile raw.autofixResult),
                      hadConflicts := true,
                      logs := [LogEvent.infoMergeConflictsFixed] }) ∧
      (∀ w : Comver, opts.wantedVersion = some w →
        (comverToSemver (((migrateLockfile raw.autofixResult).lockfileVersion).getD ⟨0, 0⟩)).major =
          (comverToSemver w).major →
        readShared lockfilePath (ReadFileResult.content raw) opts =
          Except.ok { lockfile := some (migrateLockfile raw.autofixResult),
                      hadConflicts := true,
                      logs := (LogEvent.infoMergeConflictsFixed ::
                        (if semverGtB
                          (comverToSemver
                            (((migrateLockfile raw.autofixResult).lockfileVersion).getD ⟨0, 0⟩))
                          (comverToSemver w) then [LogEvent.warnDowngrade] else [])) }) ∧
      (∀ w : Comver, opts.wantedVersion = some w →
        (comverToSemver (((migrateLockfile raw.autofixResult).lockfileVersion).getD ⟨0, 0⟩)).major ≠
          (comverToSemver w).major →
        opts.ignoreIncompatible = true →
        readShared lockfilePath (ReadFileResult.content raw) opts =
          Except.ok { lockfile := none, hadConflicts := false,
                      logs := [LogEvent.infoMergeConflictsFixed,
                               LogEvent.warnIgnoringIncompatible] }) ∧
      (∀ w : Comver, opts.wantedVersion = some w →
        (comverToSemver (((migrateLockfile raw.autofixResult).lockfileVersion).getD ⟨0, 0⟩)).major ≠
          (comverToSemver w).major →
        opts.ignoreIncompatible = false →
        readShared lockfilePath (ReadFileResult.content raw) opts =
          Except.error (PnpmErr.lockfileBreakingChange lockfilePath))) := by
  constructor
  · intro hcase
    rcases hcase with hc | hc <;> simp [readShared, h, hc]
  · intro ha hd
    refine ⟨?_, ?_, ?_, ?_⟩
    · intro hw
      simp [readShared, h, ha, hd, hw]
    · intro w hw hmaj
      simp only [readShared, h, ha, hd, hw]
      simp [hmaj]
      split <;> rfl
    · intro w hw hmaj hi
      simp [readShared, h, ha, hd, hw, hmaj, hi]
    · intro w hw hmaj hi
      simp [readShared, h, ha, hd, hw, hmaj, hi]

/-- Witness for the amended C2: conflict-marker text that fails to
parse, with auto-fix enabled and no wantedVersion, yields the
conflict-resolved document with hadConflicts = true; and with auto-fix
disabled the same content fails with BrokenLockfile. -/
theorem claim_C2_witness :
    c2Raw.parseResult = Except.error "unexpected token" ∧
    readShared "pnpm-lock.yaml" (ReadFileResult.content c2Raw)
      { autofixMergeConflicts := true, ignoreIncompatible := false } =
      Except.ok { lockfile := some (migrateLockfile c2Raw.autofixResult),
                  hadConflicts := true,
                  logs := [LogEvent.infoMergeConflictsFixed] } ∧
    readShared "pnpm-lock.yaml" (ReadFileResult.content c2Raw)
      { autofixMergeConflicts := false, ignoreIncompatible := false } =
      Except.error (PnpmErr.brokenLockfile "pnpm-lock.yaml" "unexpected token") :=
  ⟨rfl,
    ((claim_C2_parse_failure "pnpm-lock.yaml" c2Raw "unexpected token"
      { autofixMergeConflicts := true, ignoreIncompatible := false } rfl).2 rfl rfl).1 rfl,
    (claim_C2_parse_failure "pnpm-lock.yaml" c2Raw "unexpected token"
      { autofixMergeConflicts := false, ignoreIncompatible := false } rfl).1 (Or.inl rfl)⟩

end PnpmLock

namespace PnpmLock

/-- One iteration of the merge loop of _mergeGitBranchLockfiles
(read.ts lines 207-214): when the branch lockfile exists and has a
truthy `packages` map, spread-merge its entries over the accumulated
packages map (spread of an absent base map is the empty object);
otherwise leave the accumulator unchanged. -/
def mergeBranchStep (acc : LockfileFile) (gitBranchLockfile : Option LockfileFile) :
    LockfileFile :=
  match gitBranchLockfile with
  | some g =>
    match g.packages with
    | some gps => { acc with packages := some (spreadMerge (acc.packages.getD []) gps) }
    | none => acc
  | none => acc

/-- The merge of _mergeGitBranchLockfiles (read.ts lines 192-217) with
the branch lockfiles already read: an absent base lockfile passes
through unchanged, otherwise each branch lockfile is merged into the
base in enumeration order.  The reading of branch files is modelled
separately by readGitBranchLockfiles. -/
def mergeGitBranchLockfiles (lockfile : Option LockfileFile)
    (gitBranchLockfiles : List (Option LockfileFile)) : Option LockfileFile :=
  match lockfile with
  | none => none
  | some lf => some (gitBranchLockfiles.foldl mergeBranchStep lf)

/-- Lookup in the mapped first component of a spread merge. -/
theorem alookup_spread_left {V : Type} (a b : AList V) (k : String) :
    alookup (a.map (fun p => (p.1, (alookup b p.1).getD p.2))) k =
      (alookup a k).map (fun v => (alookup b k).getD v) := by
  induction a with
  | nil => rfl
  | cons hd tl ih =>
    by_cases hk : hd.1 = k
    · subst hk
      simp [alookup]
    · simp [alookup, hk, ih]

/-- Lookup in the filtered second component of a spread merge. -/
theorem alookup_spread_right {V : Type} (a b : AList V) (k : String) :
    alookup (b.filter (fun p => (alookup a p.1).isNone)) k =
      (if (alookup a k).isNone then alookup b k else none) := by
  induction b with
  | nil => simp [alookup]
  | cons hd tl ih =>
    by_cases hk : hd.1 = k
    · subst hk
      cases hp : (alookup a hd.1).isNone with
      | true => simp [alookup, List.filter, hp]
      | false => simp [alookup, List.filter, hp, ih]
    · cases hp : (alookup a hd.1).isNone with
      | true =>
        simp only [List.filter, hp]
        simp [alookup, hk, ih]
      | false =>
        simp only [List.filter, hp]
        rw [ih]
        simp [alookup, hk]

/-- Appending association lists: the first list wins on lookup. -/
theorem alookup_append {V : Type} (a b : AList V) (k : String) :
    alookup (a ++ b) k =
      (match alookup a k with
       | some v => some v
       | none => alookup b k) := by
  induction a with
  | nil => simp [alookup]
  | cons hd tl ih =>
    by_cases hk : hd.1 = k
    · subst hk
      simp [alookup]
    · simp [alookup, hk, ih]

/-- JavaScript spread merge gives the second object priority on key
collision and keeps all keys of both objects. -/
theorem alookup_spreadMerge {V : Type} (a b : AList V) (k : String) :
    alookup (spreadMerge a b) k =
      (match alookup b k with
       | some v => some v
       | none => alookup a k) := by
  unfold spreadMerge
  rw [alookup_append, alookup_spread_left, alookup_spread_right]
  cases ha : alookup a k <;> cases hb : alookup b k <;> simp [ha, hb]

/-- The merge step only changes the packages field. -/
theorem mergeBranchStep_preserves (acc : LockfileFile) (gbl : Option LockfileFile) :
    (mergeBranchStep acc gbl).lockfileVersion = acc.lockfileVersion ∧
    (mergeBranchStep acc gbl).importers = acc.importers ∧
    (mergeBranchStep acc gbl).specifiers = acc.specifiers ∧
    (mergeBranchStep acc gbl).dependenciesMeta = acc.dependenciesMeta ∧
    (mergeBranchStep acc gbl).optionalDependencies = acc.optionalDependencies ∧
    (mergeBranchStep acc gbl).dependencies = acc.dependencies ∧
    (mergeBranchStep acc gbl).devDependencies = acc.devDependencies := by
  cases gbl with
  | none => simp [mergeBranchStep]
  | some g =>
    cases hg : g.packages with
    | none => simp [mergeBranchStep, hg]
    | some gps => simp [mergeBranchStep, hg]

/-- The merge loop only changes the packages field. -/
theorem mergeBranchFoldl_preserves (branches : List (Option LockfileFile))
    (lf : LockfileFile) :
    (branches.foldl mergeBranchStep lf).lockfileVersion = lf.lockfileVersion ∧
    (branches.foldl mergeBranchStep lf).importers = lf.importers ∧
    (branches.foldl mergeBranchStep lf).specifiers = lf.specifiers ∧
    (branches.foldl mergeBranchStep lf).dependenciesMeta = lf.dependenciesMeta ∧
    (branches.foldl mergeBranchStep lf).optionalDependencies = lf.optionalDependencies ∧
    (branches.foldl mergeBranchStep lf).dependencies = lf.dependencies ∧
    (branches.foldl mergeBranchStep lf).devDependencies = lf.devDependencies := by
  induction branches generalizing lf with
  | nil => simp
  | cons hd tl ih =>
    simp only [List.foldl_cons]
    have hstep := mergeBranchStep_preserves lf hd
    have hrec := ih (mergeBranchStep lf hd)
    exact ⟨hrec.1.trans hstep.1, hrec.2.1.trans hstep.2.1,
      hrec.2.2.1.trans hstep.2.2.1, hrec.2.2.2.1.trans hstep.2.2.2.1,
      hrec.2.2.2.2.1.trans hstep.2.2.2.2.1,
      hrec.2.2.2.2.2.1.trans hstep.2.2.2.2.2.1,
      hrec.2.2.2.2.2.2.trans hstep.2.2.2.2.2.2⟩

/-- C5: the branch merge shallow-merges branch packages maps into the
base packages map with later branch files winning on key collision,
leaves every other field of the base lockfile unchanged, and passes an
absent base lockfile through unchanged; in particular base packages
A=v1 merged with branch packages B=v1 then A=v2 yields A=v2, B=v1. -/
theorem claim_C5_branch_merge :
    (∀ branches : List (Option LockfileFile),
      mergeGitBranchLockfiles none branches = none) ∧
    (∀ (lf : LockfileFile) (branches : List (Option LockfileFile)),
      ∃ lfm : LockfileFile,
        mergeGitBranchLockfiles (some lf) branches = some lfm ∧
        lfm.importers = lf.importers ∧
        lfm.lockfileVersion = lf.lockfileVersion ∧
        lfm.specifiers = lf.specifiers ∧
        lfm.dependenciesMeta = lf.dependenciesMeta ∧
        lfm.optionalDependencies = lf.optionalDependencies ∧
        lfm.dependencies = lf.dependencies ∧
        lfm.devDependencies = lf.devDependencies) ∧
    (∀ (a b : AList PackageInfo) (k : String),
      alookup (spreadMerge a b) k =
        (match alookup b k with
         | some v => some v
         | none => alookup a k)) ∧
    (mergeGitBranchLockfiles (some { packages := some [("A", "v1")] })
        [some { packages := some [("B", "v1")] }, some { packages := some [("A", "v2")] }] =
      some { packages := some [("A", "v2"), ("B", "v1")] }) := by
  refine ⟨fun _ => rfl, ?_, fun a b k => ?_, ?_⟩
  · intro lf branches
    refine ⟨branches.foldl mergeBranchStep lf, rfl, ?_⟩
    have h := mergeBranchFoldl_preserves branches lf
    exact ⟨h.2.1, h.1, h.2.2.1, h.2.2.2.1, h.2.2.2.2.1, h.2.2.2.2.2.1, h.2.2.2.2.2.2⟩
  · rw [alookup_spreadMerge]
    cases alookup b k <;> rfl
  · rfl

end PnpmLock

namespace PnpmLock

/-- Ordered set of version strings, modelling a JavaScript Set: adding
keeps insertion order and is a no-op on a duplicate. -/
def setAdd (s : List String) (v : String) : List String :=
  if v ∈ s then s else s ++ [v]

/-- Adding one observed version to the versionsByPackageNames object:
when the name is absent a fresh empty set is created for it (appended as
a new key), then the version is added to the set of the name. -/
def vmapAdd (m : AList (List String)) (name v : String) : AList (List String) :=
  match alookup m name with
  | some _ => m.map (fun p => if p.1 = name then (p.1, setAdd p.2 v) else p)
  | none => m ++ [(name, setAdd [] v)]

/-- The set of versions recorded for a name (empty when the name is
absent). -/
def lookupSet (m : AList (List String)) (name : String) : List String :=
  (alookup m name).getD []

/-- A node of an npm-style lock tree (interface LockedPackage): a
version and an optional nested dependencies map. -/
inductive LockedPackage : Type where
  | mk (version : String) (dependencies : Option (List (String × LockedPackage)))

/-- Version field accessor. -/
def LockedPackage.version : LockedPackage → String
  | .mk v _ => v

/-- Dependencies field accessor. -/
def LockedPackage.dependencies : LockedPackage → Option (AList LockedPackage)
  | .mk _ d => d

/-- First loop of getAllVersionsByPackageNames (part_000 lines 165-170):
record the version of each direct child under the child name. -/
def recordChildVersions (dependencies : AList LockedPackage)
    (versionsByPackageNames : AList (List String)) : AList (List String) :=
  dependencies.foldl (fun acc p => vmapAdd acc p.1 p.2.version) versionsByPackageNames

mutual
/-- getAllVersionsByPackageNames (part_000 lines 158-174) applied to a
node given by its optional dependencies map — the only part of the
NpmPackageLock or LockedPackage argument the function reads.  Returns
on a null dependencies map; otherwise records each direct child
version, then recurses into each child in key order. -/
def getAllVersionsByPackageNames :
    Option (AList LockedPackage) → AList (List String) → AList (List String)
  | none, m => m
  | some deps, m => walkChildren deps (recordChildVersions deps m)

/-- Second loop of getAllVersionsByPackageNames: recurse into each child
node. -/
def walkChildren : AList LockedPackage → AList (List String) → AList (List String)
  | [], m => m
  | (_, LockedPackage.mk _ d) :: rest, m => walkChildren rest (getAllVersionsByPackageNames d m)
end

/-- A record of the parsed yarn.lock map (interface YarnLockPackage);
only the version field is read by the extraction. -/
structure YarnLockPackage where
  version : String
  resolved : String := ""
  integrity : String := ""
deriving DecidableEq, Repr

/-- Characters of the substring before the last commercial-at character
of the key, empty when the key has none — the JS expression
substring(0, lastIndexOf) with its clamp of -1 to 0. -/
def yarnKeyNameChars (cs : List Char) : List Char :=
  (((cs.reverse).dropWhile (fun c => c ≠ '@')).drop 1).reverse

/-- Package name extracted from a yarn-style composite key. -/
def yarnKeyName (key : String) : String := String.mk (yarnKeyNameChars key.data)

/-- getAllVersionsFromYarnLockFile (part_000 lines 176-189): for every
composite key of the parsed yarn lock map, add the entry version to the
set of the name before the last commercial-at of the key. -/
def getAllVersionsFromYarnLockFile (yarnPackageLock : AList YarnLockPackage)
    (versionsByPackageNames : AList (List String)) : AList (List String) :=
  yarnPackageLock.foldl (fun acc p => vmapAdd acc (yarnKeyName p.1) p.2.version)
    versionsByPackageNames

/-- getPreferredVersions (part_000 lines 143-156): for each package name
in key order, reduce its version set into an object mapping each version
to the literal tag for an exact version preference. -/
def getPreferredVersions (versionsByPackageNames : AList (List String)) :
    AList (AList String) :=
  versionsByPackageNames.foldl
    (fun acc p => acc ++ [(p.1, p.2.foldl (fun a v => a ++ [(v, "version")]) [])]) []

/-- The project directory as the import handler observes it: existence
of the three foreign lock files, and the outcome of reading each format
(the readers and parsers are external collaborators). -/
structure ImportDir where
  hasYarnLock : Bool
  hasPackageLockJson : Bool
  hasNpmShrinkwrapJson : Bool
  readYarnLockFile : Except PnpmErr (AList YarnLockPackage)
  readNpmLockfile : Except PnpmErr (Option (AList LockedPackage))

/-- Foreign-lockfile extraction of the import handler (part_000 lines
55-68): yarn.lock takes priority when it exists, otherwise the npm-style
files are consulted, otherwise the import fails with LockfileNotFound. -/
def importedVersionsByPackageNames (d : ImportDir) :
    Except PnpmErr (AList (List String)) :=
  if d.hasYarnLock then
    match d.readYarnLockFile with
    | .ok yarnPackgeLockFile => .ok (getAllVersionsFromYarnLockFile yarnPackgeLockFile [])
    | .error e => .error e
  else if d.hasPackageLockJson || d.hasNpmShrinkwrapJson then
    match d.readNpmLockfile with
    | .ok npmPackageLock => .ok (getAllVersionsByPackageNames npmPackageLock [])
    | .error e => .error e
  else
    .error PnpmErr.lockfileNotFound

/-- The preferred versions the handler passes to the installer
(part_000 line 69). -/
def importPreferredVersions (d : ImportDir) : Except PnpmErr (AList (AList String)) :=
  (importedVersionsByPackageNames d).map getPreferredVersions

/-- C3: the import extraction runs the yarn-style walk exactly when
yarn.lock exists (whatever the npm-style files), the npm-style walk when
yarn.lock is absent and an npm-style file exists, and fails with
LockfileNotFound when none of the three foreign lock files exists. -/
theorem claim_C3_foreign_lockfile_selection (d : ImportDir) :
    (d.hasYarnLock = true →
      importedVersionsByPackageNames d =
        (d.readYarnLockFile).map (fun y => getAllVersionsFromYarnLockFile y [])) ∧
    (d.hasYarnLock = false → (d.hasPackageLockJson || d.hasNpmShrinkwrapJson) = true →
      importedVersionsByPackageNames d =
        (d.readNpmLockfile).map (fun n => getAllVersionsByPackageNames n [])) ∧
    (d.hasYarnLock = false → d.hasPackageLockJson = false →
      d.hasNpmShrinkwrapJson = false →
      importedVersionsByPackageNames d = Except.error PnpmErr.lockfileNotFound) := by
  refine ⟨?_, ?_, ?_⟩
  · intro hy
    cases hr : d.readYarnLockFile <;>
      simp [importedVersionsByPackageNames, hy, hr, Except.map]
  · intro hy hn
    cases hr : d.readNpmLockfile <;>
      simp [importedVersionsByPackageNames, hy, hn, hr, Except.map]
  · intro hy hp hs
    simp [importedVersionsByPackageNames, hy, hp, hs]

/-- Witness for C3: a directory holding all three foreign lock files
uses the yarn-style extraction exclusively. -/
theorem claim_C3_witness :
    ({ hasYarnLock := true, hasPackageLockJson := true, hasNpmShrinkwrapJson := true,
       readYarnLockFile := Except.ok [("lodash@^4.0.0", { version := "4.17.21" })],
       readNpmLockfile := Except.ok none } : ImportDir).hasYarnLock = true ∧
    importedVersionsByPackageNames
      { hasYarnLock := true, hasPackageLockJson := true, hasNpmShrinkwrapJson := true,
        readYarnLockFile := Except.ok [("lodash@^4.0.0", { version := "4.17.21" })],
        readNpmLockfile := Except.ok none } =
      Except.ok (getAllVersionsFromYarnLockFile [("lodash@^4.0.0", { version := "4.17.21" })] []) :=
  ⟨rfl,
    (claim_C3_foreign_lockfile_selection
      { hasYarnLock := true, hasPackageLockJson := true, hasNpmShrinkwrapJson := true,
        readYarnLockFile := Except.ok [("lodash@^4.0.0", { version := "4.17.21" })],
        readNpmLockfile := Except.ok none }).1 rfl⟩

end PnpmLock

namespace PnpmLock

/-- Dropping characters different from the commercial-at across a list
that has none stops exactly at the separator. -/
theorem dropWhile_until_at (l t : List Char) (h : '@' ∉ l) :
    List.dropWhile (fun c => c ≠ '@') (l ++ '@' :: t) = '@' :: t := by
  induction l with
  | nil => simp [List.dropWhile]
  | cons c cs ih =>
    have hc : c ≠ '@' := fun e => h (e ▸ List.mem_cons_self c cs)
    have hcs : '@' ∉ cs := fun e => h (List.mem_cons_of_mem c e)
    have ihx := ih hcs
    simp only [decide_not] at ihx ⊢
    simp [List.cons_append, List.dropWhile_cons, hc, ihx]

/-- The name extracted from a composite key of the shape name, the
commercial-at separator, then a range free of that character, is exactly
the name part. -/
theorem yarnKeyName_of_split (n r : String) (h : '@' ∉ r.data) :
    yarnKeyName (n ++ "@" ++ r) = n := by
  unfold yarnKeyName yarnKeyNameChars
  have hdata : (n ++ "@" ++ r).data = n.data ++ '@' :: r.data := by
    simp [String.data_append]
  rw [hdata]
  have hrev : (n.data ++ '@' :: r.data).reverse = r.data.reverse ++ '@' :: n.data.reverse := by
    simp
  rw [hrev, dropWhile_until_at _ _ (by simpa using h)]
  simp

/-- Effect of the map part of vmapAdd on lookups: the entry of the
updated name carries the enlarged set, every other entry is
untouched. -/
theorem alookup_vmapAdd_map (tl : AList (List String)) (name v nm : String) :
    alookup (tl.map (fun p => if p.1 = name then (p.1, setAdd p.2 v) else p)) nm =
      (if nm = name then (alookup tl name).map (fun s => setAdd s v) else alookup tl nm) := by
  induction tl with
  | nil => by_cases h : nm = name <;> simp [alookup, h]
  | cons hd tl ih =>
    obtain ⟨k, sv⟩ := hd
    by_cases hk : k = name
    · have hhead : (if (k, sv).1 = name then ((k, sv).1, setAdd (k, sv).2 v) else (k, sv)) =
          (k, setAdd sv v) := by
        simp [hk]
      rw [List.map_cons, hhead]
      subst hk
      by_cases h2 : k = nm
      · subst h2
        simp [alookup]
      · have h2x : ¬nm = k := fun e => h2 e.symm
        simp [alookup, h2, h2x, ih]
    · have hhead : (if (k, sv).1 = name then ((k, sv).1, setAdd (k, sv).2 v) else (k, sv)) =
          (k, sv) := by
        simp [hk]
      rw [List.map_cons, hhead]
      by_cases h2 : k = nm
      · subst h2
        have hkx : ¬k = name := hk
        simp [alookup, hkx]
      · simp [alookup, hk, h2, ih]

/-- Lookup after vmapAdd: the named set gains the version, every other
name keeps its set. -/
theorem lookupSet_vmapAdd (m : AList (List String)) (name v nm : String) :
    lookupSet (vmapAdd m name v) nm =
      (if nm = name then setAdd (lookupSet m name) v else lookupSet m nm) := by
  unfold vmapAdd
  cases hl : alookup m name with
  | some s =>
    rw [lookupSet, alookup_vmapAdd_map, hl]
    by_cases h2 : nm = name
    · simp [h2, lookupSet, hl]
    · simp [h2, lookupSet]
  | none =>
    rw [lookupSet, alookup_append]
    by_cases h2 : nm = name
    · subst h2
      simp [hl, alookup, lookupSet]
    · have h2x : ¬name = nm := fun e => h2 e.symm
      cases ha : alookup m nm <;> simp [alookup, h2x, lookupSet, ha, h2]

end PnpmLock

namespace PnpmLock

/-- Membership in a JavaScript set after an add. -/
theorem mem_setAdd (s : List String) (v w : String) :
    w ∈ setAdd s v ↔ w = v ∨ w ∈ s := by
  by_cases h : v ∈ s
  · simp only [setAdd, if_pos h]
    constructor
    · exact Or.inr
    · rintro (rfl | hw)
      · exact h
      · exact hw
  · simp [setAdd, h, List.mem_append, or_comm]

/-- The added version is in the set. -/
theorem mem_setAdd_self (s : List String) (v : String) : v ∈ setAdd s v :=
  (mem_setAdd s v v).2 (Or.inl rfl)

/-- Folding vmapAdd steps over a list never loses recorded versions. -/
theorem mem_lookupSet_foldl_vmapAdd {α : Type} (f g : α → String) (l : List α)
    (acc : AList (List String)) (nm w : String) (h : w ∈ lookupSet acc nm) :
    w ∈ lookupSet (l.foldl (fun a x => vmapAdd a (f x) (g x)) acc) nm := by
  induction l generalizing acc with
  | nil => exact h
  | cons x xs ih =>
    rw [List.foldl_cons]
    apply ih
    rw [lookupSet_vmapAdd]
    by_cases hx : nm = f x
    · rw [if_pos hx]
      exact (mem_setAdd _ _ _).2 (Or.inr (hx ▸ h))
    · rw [if_neg hx]
      exact h

/-- Folding vmapAdd steps over a list records the version of every
element under its key. -/
theorem mem_lookupSet_foldl_vmapAdd_of_mem {α : Type} (f g : α → String) (l : List α)
    (acc : AList (List String)) (x : α) (hx : x ∈ l) :
    g x ∈ lookupSet (l.foldl (fun a y => vmapAdd a (f y) (g y)) acc) (f x) := by
  induction l generalizing acc with
  | nil => cases hx
  | cons y ys ih =>
    rw [List.foldl_cons]
    rcases List.mem_cons.1 hx with rfl | hmem
    · apply mem_lookupSet_foldl_vmapAdd
      rw [lookupSet_vmapAdd, if_pos rfl]
      exact mem_setAdd_self _ _
    · exact ih _ hmem

/-- C8: for every composite key of the shape name-at-range (with a range
free of the commercial-at character), the extracted package name is the
substring before the last commercial-at, and the version of every entry
of the parsed yarn lock map is recorded under the name extracted from
its key. -/
theorem claim_C8_yarn_extraction :
    (∀ (n r : String), '@' ∉ r.data → yarnKeyName (n ++ "@" ++ r) = n) ∧
    (∀ (yarnPackageLock : AList YarnLockPackage) (acc : AList (List String))
       (k : String) (pkg : YarnLockPackage), (k, pkg) ∈ yarnPackageLock →
       pkg.version ∈
         lookupSet (getAllVersionsFromYarnLockFile yarnPackageLock acc) (yarnKeyName k)) := by
  constructor
  · exact yarnKeyName_of_split
  · intro yl acc k pkg hmem
    exact mem_lookupSet_foldl_vmapAdd_of_mem
      (fun p : String × YarnLockPackage => yarnKeyName p.1)
      (fun p : String × YarnLockPackage => p.2.version) yl acc (k, pkg) hmem

/-- Witness for C8 on a scoped package key: the name part itself holds a
commercial-at, splitting happens at the last one. -/
theorem claim_C8_witness :
    ('@' ∉ "^1.0.0".data ∧ ("fsevents@^1.0.0", ({ version := "1.2.9" } : YarnLockPackage)) ∈
        [("fsevents@^1.0.0", ({ version := "1.2.9" } : YarnLockPackage))]) ∧
    yarnKeyName ("fsevents" ++ "@" ++ "^1.0.0") = "fsevents" ∧
    ({ version := "1.2.9" } : YarnLockPackage).version ∈
      lookupSet (getAllVersionsFromYarnLockFile
        [("fsevents@^1.0.0", { version := "1.2.9" })] []) (yarnKeyName "fsevents@^1.0.0") :=
  ⟨⟨by decide, by simp⟩,
    claim_C8_yarn_extraction.1 "fsevents" "^1.0.0" (by decide),
    claim_C8_yarn_extraction.2 [("fsevents@^1.0.0", { version := "1.2.9" })] [] "fsevents@^1.0.0"
      { version := "1.2.9" } (by simp)⟩

end PnpmLock

namespace PnpmLock

/-- A node with the given name and version occurs at some depth in an
optional dependencies map of an npm-style lock tree. -/
inductive VersionOccurs (name ver : String) :
    Option (List (String × LockedPackage)) → Prop where
  | here {deps : List (String × LockedPackage)} {pkg : LockedPackage}
      (hmem : (name, pkg) ∈ deps) (hver : pkg.version = ver) :
      VersionOccurs name ver (some deps)
  | deeper {deps : List (String × LockedPackage)} {n : String} {pkg : LockedPackage}
      (hmem : (n, pkg) ∈ deps) (hocc : VersionOccurs name ver pkg.dependencies) :
      VersionOccurs name ver (some deps)

/-- Unfolding of an occurrence in a non-null dependencies map: either a
direct child carries the name and version, or the pair occurs deeper in
some child. -/
theorem versionOccurs_some_iff (nm ver : String) (deps : List (String × LockedPackage)) :
    VersionOccurs nm ver (some deps) ↔
      (∃ pkg : LockedPackage, (nm, pkg) ∈ deps ∧ pkg.version = ver) ∨
      (∃ p ∈ deps, VersionOccurs nm ver p.2.dependencies) := by
  constructor
  · intro h
    cases h with
    | here hmem hver => exact Or.inl ⟨_, hmem, hver⟩
    | deeper hmem hocc => exact Or.inr ⟨(_, _), hmem, hocc⟩
  · rintro (⟨pkg, hmem, hver⟩ | ⟨p, hp, hocc⟩)
    · exact .here hmem hver
    · obtain ⟨n2, pkg⟩ := p
      exact .deeper hp hocc

/-- Occurrence in a null dependencies map is impossible. -/
theorem versionOccurs_none (nm ver : String) : ¬ VersionOccurs nm ver none := by
  intro h
  cases h

/-- Full characterization of membership after folding vmapAdd steps. -/
theorem mem_lookupSet_foldl_vmapAdd_iff {α : Type} (f g : α → String) (l : List α)
    (acc : AList (List String)) (nm w : String) :
    w ∈ lookupSet (l.foldl (fun a x => vmapAdd a (f x) (g x)) acc) nm ↔
      (∃ x ∈ l, f x = nm ∧ g x = w) ∨ w ∈ lookupSet acc nm := by
  induction l generalizing acc with
  | nil => simp
  | cons y ys ih =>
    rw [List.foldl_cons, ih, lookupSet_vmapAdd]
    by_cases hy : nm = f y
    · subst hy
      rw [if_pos rfl, mem_setAdd]
      simp only [List.mem_cons]
      constructor
      · rintro (⟨x, hx, hfx, hgx⟩ | rfl | hacc)
        · exact Or.inl ⟨x, Or.inr hx, hfx, hgx⟩
        · exact Or.inl ⟨y, Or.inl rfl, rfl, rfl⟩
        · exact Or.inr hacc
      · rintro (⟨x, hx | hx, hfx, hgx⟩ | hacc)
        · subst hx
          exact Or.inr (Or.inl hgx.symm)
        · exact Or.inl ⟨x, hx, hfx, hgx⟩
        · exact Or.inr (Or.inr hacc)
    · rw [if_neg hy]
      simp only [List.mem_cons]
      constructor
      · rintro (⟨x, hx, hfx, hgx⟩ | hacc)
        · exact Or.inl ⟨x, Or.inr hx, hfx, hgx⟩
        · exact Or.inr hacc
      · rintro (⟨x, hx | hx, hfx, hgx⟩ | hacc)
        · subst hx
          exact absurd hfx.symm hy
        · exact Or.inl ⟨x, hx, hfx, hgx⟩
        · exact Or.inr hacc

/-- Characterization of the direct-children recording loop. -/
theorem mem_lookupSet_recordChildVersions (deps : AList LockedPackage)
    (m : AList (List String)) (nm ver : String) :
    ver ∈ lookupSet (recordChildVersions deps m) nm ↔
      (∃ pkg : LockedPackage, (nm, pkg) ∈ deps ∧ pkg.version = ver) ∨
      ver ∈ lookupSet m nm := by
  have h := mem_lookupSet_foldl_vmapAdd_iff
    (fun p : String × LockedPackage => p.1)
    (fun p : String × LockedPackage => p.2.version) deps m nm ver
  rw [recordChildVersions]
  rw [show deps.foldl (fun acc p => vmapAdd acc p.1 p.2.version) m =
      deps.foldl (fun a x => vmapAdd a x.1 x.2.version) m from rfl]
  rw [h]
  constructor
  · rintro (⟨⟨k, pkg⟩, hx, hfx, hgx⟩ | hacc)
    · subst hfx
      exact Or.inl ⟨pkg, hx, hgx⟩
    · exact Or.inr hacc
  · rintro (⟨pkg, hmem, hver⟩ | hacc)
    · exact Or.inl ⟨(nm, pkg), hmem, rfl, hver⟩
    · exact Or.inr hacc

/-- The dependencies of a node are smaller than the node. -/
theorem sizeOf_dependencies_lt (pkg : LockedPackage) :
    sizeOf pkg.dependencies < sizeOf pkg := by
  cases pkg with
  | mk v d =>
    simp [LockedPackage.dependencies]

end PnpmLock

namespace PnpmLock

/-- Characterization of the recursive children loop, assuming the
characterization of the main walk on the dependencies of every child of
the list. -/
theorem mem_lookupSet_walkChildren (nm ver : String) (l : List (String × LockedPackage))
    (hIH : ∀ p ∈ l, ∀ m2 : AList (List String),
      ver ∈ lookupSet (getAllVersionsByPackageNames
        (p : String × LockedPackage).2.dependencies m2) nm ↔
        VersionOccurs nm ver (p : String × LockedPackage).2.dependencies ∨
          ver ∈ lookupSet m2 nm) :
    ∀ m : AList (List String),
      ver ∈ lookupSet (walkChildren l m) nm ↔
        (∃ p ∈ l, VersionOccurs nm ver (p : String × LockedPackage).2.dependencies) ∨
          ver ∈ lookupSet m nm := by
  induction l with
  | nil =>
    intro m
    simp [walkChildren]
  | cons hd tl ih =>
    obtain ⟨k, pkg⟩ := hd
    obtain ⟨v, d⟩ := pkg
    intro m
    simp only [walkChildren]
    have hh := hIH (k, LockedPackage.mk v d) (List.mem_cons_self _ _) m
    dsimp only [LockedPackage.dependencies] at hh
    rw [ih (fun p hp m2 => hIH p (List.mem_cons_of_mem _ hp) m2), hh]
    constructor
    · rintro (⟨p, hp, hocc⟩ | hocc | hm)
      · exact Or.inl ⟨p, List.mem_cons_of_mem _ hp, hocc⟩
      · exact Or.inl ⟨(k, LockedPackage.mk v d), List.mem_cons_self _ _, hocc⟩
      · exact Or.inr hm
    · rintro (⟨p, hp, hocc⟩ | hm)
      · rcases List.mem_cons.1 hp with rfl | hp2
        · exact Or.inr (Or.inl hocc)
        · exact Or.inl ⟨p, hp2, hocc⟩
      · exact Or.inr (Or.inr hm)

/-- Size-bounded characterization of the full walk. -/
theorem mem_lookupSet_walk_bounded (nm ver : String) :
    ∀ (N : Nat) (o : Option (List (String × LockedPackage))) (m : AList (List String)),
      sizeOf o ≤ N →
      (ver ∈ lookupSet (getAllVersionsByPackageNames o m) nm ↔
        VersionOccurs nm ver o ∨ ver ∈ lookupSet m nm) := by
  intro N
  induction N with
  | zero =>
    intro o m h
    exfalso
    cases o with
    | none =>
      rw [show sizeOf (none : Option (List (String × LockedPackage))) = 1 from rfl] at h
      omega
    | some deps =>
      have : sizeOf (some deps : Option (List (String × LockedPackage))) = 1 + sizeOf deps := by
        simp
      omega
  | succ N ih =>
    intro o m hle
    cases o with
    | none =>
      simp only [getAllVersionsByPackageNames]
      constructor
      · exact Or.inr
      · rintro (hocc | hm)
        · exact absurd hocc (versionOccurs_none nm ver)
        · exact hm
    | some deps =>
      have hIH : ∀ p ∈ deps, ∀ m2 : AList (List String),
          ver ∈ lookupSet (getAllVersionsByPackageNames
            (p : String × LockedPackage).2.dependencies m2) nm ↔
            VersionOccurs nm ver (p : String × LockedPackage).2.dependencies ∨
              ver ∈ lookupSet m2 nm := by
        intro p hp m2
        apply ih
        have h1 := List.sizeOf_lt_of_mem hp
        have h2 := sizeOf_dependencies_lt p.2
        have h3 : sizeOf p.2 < sizeOf p := by
          obtain ⟨a, b⟩ := p
          simp
        have h4 : sizeOf (some deps : Option (List (String × LockedPackage))) =
            1 + sizeOf deps := by
          simp
        omega
      simp only [getAllVersionsByPackageNames]
      rw [mem_lookupSet_walkChildren nm ver deps hIH, mem_lookupSet_recordChildVersions,
        versionOccurs_some_iff]
      constructor
      · rintro (hdeep | hhere | hm)
        · exact Or.inl (Or.inr hdeep)
        · exact Or.inl (Or.inl hhere)
        · exact Or.inr hm
      · rintro ((hhere | hdeep) | hm)
        · exact Or.inr (Or.inl hhere)
        · exact Or.inl hdeep
        · exact Or.inr (Or.inr hm)

/-- Characterization of the full walk: a version is recorded under a
name exactly when it occurs in the tree under that name or was already
recorded in the accumulator. -/
theorem mem_lookupSet_getAllVersions (nm ver : String)
    (o : Option (List (String × LockedPackage))) (m : AList (List String)) :
    ver ∈ lookupSet (getAllVersionsByPackageNames o m) nm ↔
      VersionOccurs nm ver o ∨ ver ∈ lookupSet m nm :=
  mem_lookupSet_walk_bounded nm ver (sizeOf o) o m (Nat.le_refl _)

end PnpmLock

namespace PnpmLock

/-- Every version set of the map is free of duplicates. -/
def entriesNodup (m : AList (List String)) : Prop :=
  ∀ p ∈ m, ((p : String × List String).2).Nodup

/-- Set insertion keeps freedom from duplicates. -/
theorem nodup_setAdd (s : List String) (v : String) (h : s.Nodup) : (setAdd s v).Nodup := by
  by_cases hv : v ∈ s
  · simpa [setAdd, hv] using h
  · simp only [setAdd, if_neg hv]
    rw [List.nodup_append]
    exact ⟨h, List.nodup_singleton v, by simpa using hv⟩

/-- vmapAdd keeps every version set free of duplicates. -/
theorem entriesNodup_vmapAdd (m : AList (List String)) (name v : String)
    (h : entriesNodup m) : entriesNodup (vmapAdd m name v) := by
  unfold vmapAdd
  cases hl : alookup m name with
  | some s =>
    intro p hp
    obtain ⟨q, hq, rfl⟩ := List.mem_map.1 hp
    by_cases hqk : q.1 = name
    · simp only [if_pos hqk]
      exact nodup_setAdd _ _ (h q hq)
    · simp only [if_neg hqk]
      exact h q hq
  | none =>
    intro p hp
    rcases List.mem_append.1 hp with hm | hm
    · exact h p hm
    · simp only [List.mem_singleton] at hm
      subst hm
      simp [setAdd]

/-- Folding vmapAdd steps keeps every version set free of
duplicates. -/
theorem entriesNodup_foldl_vmapAdd {α : Type} (f g : α → String) (l : List α) :
    ∀ acc : AList (List String), entriesNodup acc →
      entriesNodup (l.foldl (fun a x => vmapAdd a (f x) (g x)) acc) := by
  induction l with
  | nil => exact fun acc h => h
  | cons y ys ih =>
    intro acc h
    rw [List.foldl_cons]
    exact ih _ (entriesNodup_vmapAdd _ _ _ h)

/-- The children-recording loop keeps every version set free of
duplicates. -/
theorem entriesNodup_recordChildVersions (deps : AList LockedPackage)
    (m : AList (List String)) (h : entriesNodup m) :
    entriesNodup (recordChildVersions deps m) :=
  entriesNodup_foldl_vmapAdd (fun p : String × LockedPackage => p.1)
    (fun p : String × LockedPackage => p.2.version) deps m h

/-- The children walk keeps every version set free of duplicates,
assuming the same for the main walk on each child. -/
theorem entriesNodup_walkChildren (l : List (String × LockedPackage))
    (hIH : ∀ p ∈ l, ∀ m : AList (List String), entriesNodup m →
      entriesNodup (getAllVersionsByPackageNames
        (p : String × LockedPackage).2.dependencies m)) :
    ∀ m : AList (List String), entriesNodup m → entriesNodup (walkChildren l m) := by
  induction l with
  | nil =>
    intro m h
    simpa [walkChildren] using h
  | cons hd tl ih =>
    obtain ⟨k, pkg⟩ := hd
    obtain ⟨v, d⟩ := pkg
    intro m h
    simp only [walkChildren]
    apply ih (fun p hp => hIH p (List.mem_cons_of_mem _ hp))
    have hx := hIH (k, LockedPackage.mk v d) (List.mem_cons_self _ _) m h
    dsimp only [LockedPackage.dependencies] at hx
    exact hx

/-- Size-bounded: the full walk keeps every version set free of
duplicates. -/
theorem entriesNodup_walk_bounded :
    ∀ (N : Nat) (o : Option (List (String × LockedPackage))) (m : AList (List String)),
      sizeOf o ≤ N → entriesNodup m → entriesNodup (getAllVersionsByPackageNames o m) := by
  intro N
  induction N with
  | zero =>
    intro o m h _
    exfalso
    cases o with
    | none =>
      rw [show sizeOf (none : Option (List (String × LockedPackage))) = 1 from rfl] at h
      omega
    | some deps =>
      have : sizeOf (some deps : Option (List (String × LockedPackage))) = 1 + sizeOf deps := by
        simp
      omega
  | succ N ih =>
    intro o m hle hm
    cases o with
    | none => simpa only [getAllVersionsByPackageNames] using hm
    | some deps =>
      simp only [getAllVersionsByPackageNames]
      apply entriesNodup_walkChildren deps
      · intro p hp m2 hm2
        apply ih _ _ _ hm2
        have h1 := List.sizeOf_lt_of_mem hp
        have h2 := sizeOf_dependencies_lt p.2
        have h3 : sizeOf p.2 < sizeOf p := by
          obtain ⟨a, b⟩ := p
          simp
        have h4 : sizeOf (some deps : Option (List (String × LockedPackage))) =
            1 + sizeOf deps := by
          simp
        omega
      · exact entriesNodup_recordChildVersions deps m hm

/-- The full walk keeps every version set free of duplicates. -/
theorem entriesNodup_getAllVersions (o : Option (List (String × LockedPackage)))
    (m : AList (List String)) (h : entriesNodup m) :
    entriesNodup (getAllVersionsByPackageNames o m) :=
  entriesNodup_walk_bounded (sizeOf o) o m (Nat.le_refl _) h

/-- The reduce loops of getPreferredVersions are append-maps. -/
theorem getPreferredVersions_go (l : AList (List String)) :
    ∀ acc : AList (AList String),
      l.foldl (fun acc p => acc ++ [(p.1, p.2.foldl (fun a v => a ++ [(v, "version")]) [])])
          acc =
        acc ++ l.map (fun p => (p.1, p.2.map (fun v => (v, "version")))) := by
  induction l with
  | nil =>
    intro acc
    simp
  | cons y ys ih =>
    intro acc
    rw [List.foldl_cons, ih]
    have hy : y.2.foldl (fun a v => a ++ [(v, "version")]) [] =
        y.2.map (fun v => (v, "version")) := by
      have hgen : ∀ (s : List String) (a : AList String),
          s.foldl (fun a v => a ++ [(v, "version")]) a =
            a ++ s.map (fun v => (v, "version")) := by
        intro s
        induction s with
        | nil =>
          intro a
          simp
        | cons w ws ihs =>
          intro a
          rw [List.foldl_cons, ihs]
          simp
      simpa using hgen y.2 []
    rw [hy]
    simp

/-- getPreferredVersions maps each name to the map sending each version
of its set to the literal version tag, names and versions in insertion
order. -/
theorem getPreferredVersions_eq_map (m : AList (List String)) :
    getPreferredVersions m =
      m.map (fun p => ((p : String × List String).1,
        p.2.map (fun v => (v, "version")))) := by
  unfold getPreferredVersions
  rw [getPreferredVersions_go]
  simp

/-- The npm-style lock tree of the C4 scenario. -/
def c4Deps : List (String × LockedPackage) :=
  [("lodash", LockedPackage.mk "4.17.0" (some [("debug", LockedPackage.mk "1.0.0" none)]))]

/-- The project directory of the C4 scenario: only package-lock.json
exists. -/
def c4Dir : ImportDir :=
  { hasYarnLock := false, hasPackageLockJson := true, hasNpmShrinkwrapJson := false,
    readYarnLockFile := Except.ok [], readNpmLockfile := Except.ok (some c4Deps) }

/-- C4: the recursive walk records under each package name exactly the
versions of the nodes carrying that name at any depth, with set
semantics (no duplicates), the conversion to PreferredVersions maps
each name to a map from each observed version to the literal version
tag, and the nested lodash-debug scenario evaluates to the expected
result. -/
theorem claim_C4_npm_walk :
    (∀ (deps : Option (List (String × LockedPackage))) (nm ver : String),
      ver ∈ lookupSet (getAllVersionsByPackageNames deps []) nm ↔
        VersionOccurs nm ver deps) ∧
    (∀ (deps : Option (List (String × LockedPackage))) (p : String × List String),
      p ∈ getAllVersionsByPackageNames deps [] → p.2.Nodup) ∧
    (∀ m : AList (List String), getPreferredVersions m =
      m.map (fun p => ((p : String × List String).1,
        p.2.map (fun v => (v, "version"))))) ∧
    (importPreferredVersions c4Dir =
      Except.ok [("lodash", [("4.17.0", "version")]), ("debug", [("1.0.0", "version")])]) := by
  refine ⟨?_, ?_, getPreferredVersions_eq_map, ?_⟩
  · intro deps nm ver
    rw [mem_lookupSet_getAllVersions]
    simp [lookupSet, alookup]
  · intro deps p hp
    exact entriesNodup_getAllVersions deps []
      (fun q hq => absurd hq (List.not_mem_nil q)) p hp
  · simp [importPreferredVersions, importedVersionsByPackageNames, c4Dir, c4Deps,
      getAllVersionsByPackageNames, walkChildren, recordChildVersions, vmapAdd, alookup,
      setAdd, getPreferredVersions, Except.map, LockedPackage.version,
      LockedPackage.dependencies]

/-- Witness for C4: in the lodash-debug scenario the lodash entry of the
walk result is the duplicate-free singleton set. -/
theorem claim_C4_witness :
    (("lodash", ["4.17.0"]) ∈ getAllVersionsByPackageNames (some c4Deps) []) ∧
    (["4.17.0"] : List String).Nodup := by
  have hmem : ("lodash", ["4.17.0"]) ∈ getAllVersionsByPackageNames (some c4Deps) [] := by
    simp [c4Deps, getAllVersionsByPackageNames, walkChildren, recordChildVersions, vmapAdd,
      alookup, setAdd, LockedPackage.version, LockedPackage.dependencies]
  exact ⟨hmem, claim_C4_npm_walk.2.1 (some c4Deps) ("lodash", ["4.17.0"]) hmem⟩

end PnpmLock

namespace PnpmLock

/-- WANTED_LOCKFILE from @pnpm/constants. -/
def WANTED_LOCKFILE : String := "pnpm-lock.yaml"

/-- Path join, in the one shape used here. -/
def pathJoin (dir file : String) : String := dir ++ "/" ++ file

/-- Options record of readWantedLockfileAndAutofixConflicts; like the
source type it has no autofixMergeConflicts field. -/
structure WantedOpts where
  wantedVersion : Option Comver := none
  ignoreIncompatible : Bool
  useGitBranchLockfile : Bool := false
  mergeGitBranchLockfiles : Bool := false
deriving DecidableEq, Repr

/-- The read options this record denotes when passed to _read or
_mergeGitBranchLockfiles: reading an absent autofixMergeConflicts key
yields the falsy undefined, modelled by the default false. -/
def WantedOpts.toReadOpts (o : WantedOpts) : ReadOpts :=
  { wantedVersion := o.wantedVersion, ignoreIncompatible := o.ignoreIncompatible }

/-- The directory as the wanted-lockfile reader observes it: the file
content at each path, the branch-specific wanted lockfile name computed
by getWantedLockfileName, and the branch lockfile names enumerated by
getGitBranchLockfileNames (both external collaborators). -/
structure LockfileDirEnv where
  files : String → ReadFileResult
  wantedLockfileName : String
  gitBranchLockfileNames : List String

/-- _readGitBranchLockfiles (read.ts lines 219-234): read every
enumerated branch lockfile through the shared read routine with the
given options; any failing read fails the whole operation. -/
def readGitBranchLockfiles (lockfileDir : String) (env : LockfileDirEnv)
    (opts : ReadOpts) : Except PnpmErr (List ReadSuccess) :=
  env.gitBranchLockfileNames.mapM
    (fun file => readShared (pathJoin lockfileDir file)
      (env.files (pathJoin lockfileDir file)) opts)

/-- _mergeGitBranchLockfiles (read.ts lines 192-217) with its reads: an
absent base lockfile passes through without reading anything; otherwise
all branch lockfiles are read and their packages maps merged into the
base. -/
def mergeGitBranchLockfilesIO (lockfile : Option LockfileFile) (lockfileDir : String)
    (env : LockfileDirEnv) (opts : ReadOpts) : Except PnpmErr (Option LockfileFile) :=
  match lockfile with
  | none => .ok none
  | some lf =>
    match readGitBranchLockfiles lockfileDir env opts with
    | .error e => .error e
    | .ok results =>
      .ok (mergeGitBranchLockfiles (some lf) (results.map (fun r => r.lockfile)))

/-- Candidate loop of readWantedLockfileAndAutofixConflicts (read.ts
lines 52-60): try each candidate name through the shared read routine
with conflict auto-fix enabled, stop at the first non-absent lockfile,
passing it through the branch merge (invoked with the original options
record, which carries no autofixMergeConflicts key) when requested.
When no candidate yields a lockfile the final result is absent with
hadConflicts false, as every absent _read result carries a false
hadConflicts flag. -/
def readWantedAux (pkgPath : String) (env : LockfileDirEnv) (opts : WantedOpts) :
    List String → Except PnpmErr (Option LockfileFile × Bool)
  | [] => .ok (none, false)
  | lockfileName :: rest =>
    match readShared (pathJoin pkgPath lockfileName)
        (env.files (pathJoin pkgPath lockfileName))
        { autofixMergeConflicts := true, wantedVersion := opts.wantedVersion,
          ignoreIncompatible := opts.ignoreIncompatible } with
    | .error e => .error e
    | .ok r =>
      match r.lockfile with
      | some lf =>
        if opts.mergeGitBranchLockfiles then
          match mergeGitBranchLockfilesIO (some lf) pkgPath env opts.toReadOpts with
          | .error e => .error e
          | .ok merged => .ok (merged, r.hadConflicts)
        else
          .ok (some lf, r.hadConflicts)
      | none => readWantedAux pkgPath env opts rest

/-- readWantedLockfileAndAutofixConflicts (read.ts lines 32-62): the
branch-specific wanted lockfile name is tried ahead of the standard
name when useGitBranchLockfile is set and the names differ. -/
def readWantedLockfileAndAutofixConflicts (pkgPath : String) (env : LockfileDirEnv)
    (opts : WantedOpts) : Except PnpmErr (Option LockfileFile × Bool) :=
  readWantedAux pkgPath env opts
    (if opts.useGitBranchLockfile ∧ env.wantedLockfileName ≠ WANTED_LOCKFILE then
      [env.wantedLockfileName, WANTED_LOCKFILE]
    else
      [WANTED_LOCKFILE])

/-- C10: the branch lockfile reads are performed without conflict
auto-fix even inside the conflict-aware readWantedLockfileAndAutofix-
Conflicts: a branch lockfile whose text fails to parse makes the merge
fail with BrokenLockfile even when the text carries conflict
markers. -/
theorem claim_C10_branch_reads_without_autofix (pkgPath f msg : String)
    (rest : List String) (env : LockfileDirEnv) (opts : WantedOpts)
    (mainRaw : RawLockfileContent) (doc : LockfileFile) (branchRaw : RawLockfileContent)
    (hmerge : opts.mergeGitBranchLockfiles = true)
    (huse : opts.useGitBranchLockfile = false)
    (hwv : opts.wantedVersion = none)
    (hmain : env.files (pathJoin pkgPath WANTED_LOCKFILE) = ReadFileResult.content mainRaw)
    (hparse : mainRaw.parseResult = Except.ok (some doc))
    (hnames : env.gitBranchLockfileNames = f :: rest)
    (hbranch : env.files (pathJoin pkgPath f) = ReadFileResult.content branchRaw)
    (hbparse : branchRaw.parseResult = Except.error msg) :
    opts.toReadOpts.autofixMergeConflicts = false ∧
    readWantedLockfileAndAutofixConflicts pkgPath env opts =
      Except.error (PnpmErr.brokenLockfile (pathJoin pkgPath f) msg) := by
  refine ⟨rfl, ?_⟩
  rw [readWantedLockfileAndAutofixConflicts, if_neg (by simp [huse])]
  rw [readWantedAux, hmain]
  simp [readShared, hparse, hwv, hmerge, mergeGitBranchLockfilesIO, readGitBranchLockfiles,
    hnames, hbranch, hbparse, WantedOpts.toReadOpts, List.mapM.loop, Bind.bind, Except.bind]

end PnpmLock

namespace PnpmLock

/-- Wanted lockfile content of the C10 witness: parses cleanly to an
empty document. -/
def c10MainRaw : RawLockfileContent :=
  { parseResult := Except.ok (some {}), isDiff := false, autofixResult := {} }

/-- Branch lockfile content of the C10 witness: carries conflict
markers (isDiff) yet fails to parse. -/
def c10BranchRaw : RawLockfileContent :=
  { parseResult := Except.error "merge conflict", isDiff := true, autofixResult := {} }

/-- Directory of the C10 witness. -/
def c10Env : LockfileDirEnv :=
  { files := fun p =>
      if p = "proj/pnpm-lock.yaml" then ReadFileResult.content c10MainRaw
      else if p = "proj/pnpm-lock.branch.yaml" then ReadFileResult.content c10BranchRaw
      else ReadFileResult.enoent,
    wantedLockfileName := WANTED_LOCKFILE,
    gitBranchLockfileNames := ["pnpm-lock.branch.yaml"] }

/-- Witness for C10: the branch file carries conflict markers, yet the
conflict-aware reader fails with BrokenLockfile when merging it. -/
theorem claim_C10_witness :
    c10BranchRaw.isDiff = true ∧
    readWantedLockfileAndAutofixConflicts "proj" c10Env
      { ignoreIncompatible := false, mergeGitBranchLockfiles := true } =
      Except.error (PnpmErr.brokenLockfile "proj/pnpm-lock.branch.yaml" "merge conflict") := by
  refine ⟨rfl, ?_⟩
  have h := (claim_C10_branch_reads_without_autofix "proj" "pnpm-lock.branch.yaml"
    "merge conflict" [] c10Env
    { ignoreIncompatible := false, mergeGitBranchLockfiles := true }
    c10MainRaw {} c10BranchRaw rfl rfl rfl (by rfl) rfl rfl (by rfl) rfl).2
  simpa [pathJoin] using h

end PnpmLock
